import Mathlib

/-!
Verification of `dotwiz/plus.py`: a `dict` subclass (`DotWizPlus`) with
dot-access, key normalization (`to_snake_case`), reserved-word handling,
and recursive value resolution.

Strings are modelled as lists of ASCII characters (`Str`). The Python
regular expression
  `\d[A-Z]+|[A-Z]?[a-z\d]+|[A-Z]{2,}(?=[A-Z][a-z]|\d|\W|$)|\d+|[A-Z]{2,}|[A-Z]`
used by `to_snake_case` via `findall` is embedded directly: at each
position the six alternatives are tried in order, each with the greedy /
backtracking semantics of the Python `re` engine restricted to ASCII.
-/

abbrev Str := List Char

/-- ASCII uppercase letter, `[A-Z]` in the regex (codes 65-90). -/
def isUpperCh (c : Char) : Bool := 65 ≤ c.toNat && c.toNat ≤ 90

/-- ASCII lowercase letter, `[a-z]` in the regex (codes 97-122). -/
def isLowerCh (c : Char) : Bool := 97 ≤ c.toNat && c.toNat ≤ 122

/-- ASCII digit (codes 48-57), `\d` in the regex (ASCII fragment) and
`str.isdigit`. -/
def isDigitCh (c : Char) : Bool := 48 ≤ c.toNat && c.toNat ≤ 57

/-- Character class `[a-z\d]` of the second regex alternative. -/
def isLowerOrDigit (c : Char) : Bool := isLowerCh c || isDigitCh c

/-- ASCII letter. -/
def isAlphaCh (c : Char) : Bool := isUpperCh c || isLowerCh c

/-- Word character `\w` (ASCII fragment): letter, digit or underscore
(code 95). -/
def isWordCh (c : Char) : Bool :=
  isAlphaCh c || isDigitCh c || decide (c.toNat = 95)

/-- `str.lower` on one ASCII character. -/
def lowerCh (c : Char) : Char :=
  if isUpperCh c then Char.ofNat (c.toNat + 32) else c

/-- Python `str.lower` (ASCII fragment). -/
def pyLower (s : Str) : Str := s.map lowerCh

/-- Python `str.isidentifier` (ASCII fragment): nonempty, first character a
letter or underscore, remaining characters letters, digits or underscores. -/
def isIdentifier (s : Str) : Bool :=
  match s with
  | [] => false
  | c :: rest => (isAlphaCh c || c = '_') && rest.all isWordCh

/-- The Python keyword list (`keyword.kwlist`); `keyword.iskeyword` is
membership in this list. -/
def pyKeywords : List Str :=
  [ ['F','a','l','s','e'], ['N','o','n','e'], ['T','r','u','e'],
    ['a','n','d'], ['a','s'], ['a','s','s','e','r','t'],
    ['a','s','y','n','c'], ['a','w','a','i','t'],
    ['b','r','e','a','k'], ['c','l','a','s','s'],
    ['c','o','n','t','i','n','u','e'], ['d','e','f'], ['d','e','l'],
    ['e','l','i','f'], ['e','l','s','e'], ['e','x','c','e','p','t'],
    ['f','i','n','a','l','l','y'], ['f','o','r'], ['f','r','o','m'],
    ['g','l','o','b','a','l'], ['i','f'], ['i','m','p','o','r','t'],
    ['i','n'], ['i','s'], ['l','a','m','b','d','a'],
    ['n','o','n','l','o','c','a','l'], ['n','o','t'], ['o','r'],
    ['p','a','s','s'], ['r','a','i','s','e'], ['r','e','t','u','r','n'],
    ['t','r','y'], ['w','h','i','l','e'], ['w','i','t','h'],
    ['y','i','e','l','d'] ]

/-- `keyword.iskeyword`. -/
def isKeyword (s : Str) : Bool := pyKeywords.any (fun k => decide (k = s))

/-! ### The segmentation regex

Each alternative is modelled as a partial match at the start of the input,
returning the length of the match (`none` when the alternative fails).
`findall` scans left to right, emitting the first successful alternative's
match and continuing after it, or skipping one character when all fail. -/

/-- Alternative 1: `\d[A-Z]+` (greedy). -/
def alt1Len (cs : Str) : Option Nat :=
  match cs with
  | [] => none
  | c :: rest =>
    if isDigitCh c then
      let us := rest.takeWhile isUpperCh
      if us.length = 0 then none else some (1 + us.length)
    else none

/-- Alternative 2: `[A-Z]?[a-z\d]+` (greedy, with backtracking over the
optional uppercase letter). -/
def alt2Len (cs : Str) : Option Nat :=
  match cs with
  | [] => none
  | c :: rest =>
    if isUpperCh c then
      let run := rest.takeWhile isLowerOrDigit
      if run.length = 0 then none else some (1 + run.length)
    else
      let run := (c :: rest).takeWhile isLowerOrDigit
      if run.length = 0 then none else some run.length

/-- The lookahead `(?=[A-Z][a-z]|\d|\W|$)` of alternative 3, applied to the
remainder of the input. -/
def alt3Look (cs : Str) : Bool :=
  match cs with
  | [] => true
  | c :: rest =>
    (isUpperCh c && (match rest with | c2 :: _ => isLowerCh c2 | [] => false))
    || isDigitCh c || !isWordCh c

/-- Backtracking loop of alternative 3: try match lengths `n, n-1, ..., 2`
until the lookahead succeeds. -/
def alt3Try (cs : Str) (n : Nat) : Option Nat :=
  match n with
  | 0 => none
  | 1 => none
  | m + 2 =>
    if alt3Look (cs.drop (m + 2)) then some (m + 2) else alt3Try cs (m + 1)

/-- Alternative 3: `[A-Z]{2,}(?=[A-Z][a-z]|\d|\W|$)`. -/
def alt3Len (cs : Str) : Option Nat :=
  alt3Try cs (cs.takeWhile isUpperCh).length

/-- Alternative 4: `\d+` (greedy). -/
def alt4Len (cs : Str) : Option Nat :=
  let run := cs.takeWhile isDigitCh
  if run.length = 0 then none else some run.length

/-- Alternative 5: `[A-Z]{2,}` (greedy, no lookahead). -/
def alt5Len (cs : Str) : Option Nat :=
  let run := cs.takeWhile isUpperCh
  if run.length < 2 then none else some run.length

/-- Alternative 6: `[A-Z]`. -/
def alt6Len (cs : Str) : Option Nat :=
  match cs with
  | [] => none
  | c :: _ => if isUpperCh c then some 1 else none

/-- Try the six alternatives of `__SPECIAL_CASE_RE` in order; return the
length of the first successful match at the start of `cs`. -/
def matchLen (cs : Str) : Option Nat :=
  match alt1Len cs with
  | some n => some n
  | none =>
    match alt2Len cs with
    | some n => some n
    | none =>
      match alt3Len cs with
      | some n => some n
      | none =>
        match alt4Len cs with
        | some n => some n
        | none =>
          match alt5Len cs with
          | some n => some n
          | none => alt6Len cs

theorem takeWhile_length_le (p : Char → Bool) :
    ∀ l : List Char, (l.takeWhile p).length ≤ l.length
  | [] => by simp
  | c :: rest => by
    simp only [List.takeWhile]
    cases p c
    · simp
    · simpa using Nat.succ_le_succ (takeWhile_length_le p rest)

theorem alt3Try_bounds :
    ∀ (cs : Str) (n : Nat) {m : Nat}, alt3Try cs n = some m → 2 ≤ m ∧ m ≤ n
  | _, 0, _, h => by simp [alt3Try] at h
  | _, 1, _, h => by simp [alt3Try] at h
  | cs, j + 2, m, h => by
    rw [alt3Try] at h
    split at h
    · cases h; omega
    · have := alt3Try_bounds cs (j + 1) h; omega

theorem alt1Len_pos {cs : Str} {n : Nat} (h : alt1Len cs = some n) : 1 ≤ n := by
  match cs with
  | [] => exact Option.noConfusion h
  | c :: rest =>
    simp only [alt1Len] at h
    split at h
    · split at h
      · exact Option.noConfusion h
      · cases h; omega
    · exact Option.noConfusion h

theorem alt1Len_le {cs : Str} {n : Nat} (h : alt1Len cs = some n) :
    n ≤ cs.length := by
  match cs with
  | [] => exact Option.noConfusion h
  | c :: rest =>
    simp only [alt1Len] at h
    split at h
    · split at h
      · exact Option.noConfusion h
      · cases h
        have := takeWhile_length_le isUpperCh rest
        simp; omega
    · exact Option.noConfusion h

theorem alt2Len_pos {cs : Str} {n : Nat} (h : alt2Len cs = some n) : 1 ≤ n := by
  match cs with
  | [] => exact Option.noConfusion h
  | c :: rest =>
    simp only [alt2Len] at h
    split at h
    · split at h
      · exact Option.noConfusion h
      · cases h; omega
    · split at h
      · exact Option.noConfusion h
      · rename_i hl; cases h; omega

theorem alt2Len_le {cs : Str} {n : Nat} (h : alt2Len cs = some n) :
    n ≤ cs.length := by
  match cs with
  | [] => exact Option.noConfusion h
  | c :: rest =>
    simp only [alt2Len] at h
    split at h
    · split at h
      · exact Option.noConfusion h
      · cases h
        have := takeWhile_length_le isLowerOrDigit rest
        simp; omega
    · split at h
      · exact Option.noConfusion h
      · cases h
        exact takeWhile_length_le isLowerOrDigit (c :: rest)

theorem alt4Len_pos {cs : Str} {n : Nat} (h : alt4Len cs = some n) : 1 ≤ n := by
  simp only [alt4Len] at h
  split at h
  · exact Option.noConfusion h
  · rename_i hl; cases h; omega

theorem alt4Len_le {cs : Str} {n : Nat} (h : alt4Len cs = some n) :
    n ≤ cs.length := by
  simp only [alt4Len] at h
  split at h
  · exact Option.noConfusion h
  · cases h; exact takeWhile_length_le isDigitCh cs

theorem alt5Len_pos {cs : Str} {n : Nat} (h : alt5Len cs = some n) : 1 ≤ n := by
  simp only [alt5Len] at h
  split at h
  · exact Option.noConfusion h
  · rename_i hl; cases h; omega

theorem alt5Len_le {cs : Str} {n : Nat} (h : alt5Len cs = some n) :
    n ≤ cs.length := by
  simp only [alt5Len] at h
  split at h
  · exact Option.noConfusion h
  · cases h; exact takeWhile_length_le isUpperCh cs

theorem alt6Len_pos {cs : Str} {n : Nat} (h : alt6Len cs = some n) : 1 ≤ n := by
  match cs with
  | [] => exact Option.noConfusion h
  | c :: rest =>
    simp only [alt6Len] at h
    split at h
    · cases h; omega
    · exact Option.noConfusion h

theorem alt6Len_le {cs : Str} {n : Nat} (h : alt6Len cs = some n) :
    n ≤ cs.length := by
  match cs with
  | [] => exact Option.noConfusion h
  | c :: rest =>
    simp only [alt6Len] at h
    split at h
    · cases h; simp
    · exact Option.noConfusion h

/-- Every successful regex match is nonempty. -/
theorem matchLen_pos {cs : Str} {n : Nat} (h : matchLen cs = some n) : 1 ≤ n := by
  unfold matchLen at h
  split at h
  · rename_i h1; cases h; exact alt1Len_pos h1
  · split at h
    · rename_i h2; cases h; exact alt2Len_pos h2
    · split at h
      · rename_i h3; cases h; have := alt3Try_bounds cs _ h3; omega
      · split at h
        · rename_i h4; cases h; exact alt4Len_pos h4
        · split at h
          · rename_i h5; cases h; exact alt5Len_pos h5
          · exact alt6Len_pos h

/-- Every successful regex match fits inside the input. -/
theorem matchLen_le {cs : Str} {n : Nat} (h : matchLen cs = some n) :
    n ≤ cs.length := by
  unfold matchLen at h
  split at h
  · rename_i h1; cases h; exact alt1Len_le h1
  · split at h
    · rename_i h2; cases h; exact alt2Len_le h2
    · split at h
      · rename_i h3; cases h
        have h1 := alt3Try_bounds cs _ h3
        have h2 := takeWhile_length_le isUpperCh cs
        omega
      · split at h
        · rename_i h4; cases h; exact alt4Len_le h4
        · split at h
          · rename_i h5; cases h; exact alt5Len_le h5
          · exact alt6Len_le h

/-- Fuel-driven scanning loop of `findall` (the fuel only serves
termination; `findall` supplies enough fuel for it never to run out). -/
def findallF : Nat → Str → List Str
  | 0, _ => []
  | _ + 1, [] => []
  | fuel + 1, c :: rest =>
    match matchLen (c :: rest) with
    | some n => (c :: rest).take n :: findallF fuel ((c :: rest).drop n)
    | none => findallF fuel rest

/-- `__SPECIAL_CASE_RE.findall`: scan left to right; at each position emit
the first-alternative match and continue after it, or skip one character. -/
def findall (cs : Str) : List Str := findallF cs.length cs

theorem findallF_congr :
    ∀ (f1 : Nat) (f2 : Nat) (cs : Str), cs.length ≤ f1 → cs.length ≤ f2 →
      findallF f1 cs = findallF f2 cs := by
  intro f1
  induction f1 with
  | zero =>
    intro f2 cs h1 _
    match cs with
    | [] => cases f2 <;> rfl
    | c :: rest => simp at h1
  | succ k ih =>
    intro f2 cs h1 h2
    match cs with
    | [] => cases f2 <;> rfl
    | c :: rest =>
      match f2 with
      | 0 => simp at h2
      | j + 1 =>
        simp only [findallF]
        cases hm : matchLen (c :: rest) with
        | some n =>
          have hp := matchLen_pos hm
          have hle := matchLen_le hm
          simp only []
          have hd : ((c :: rest).drop n).length ≤ k := by
            simp at h1 ⊢; omega
          have hd2 : ((c :: rest).drop n).length ≤ j := by
            simp at h2 ⊢; omega
          rw [ih j _ hd hd2]
        | none =>
          have hr : rest.length ≤ k := by simp at h1; omega
          have hr2 : rest.length ≤ j := by simp at h2; omega
          exact ih j rest hr hr2

theorem findallF_eq_findall (fuel : Nat) (cs : Str) (h : cs.length ≤ fuel) :
    findallF fuel cs = findall cs :=
  findallF_congr fuel cs.length cs h (le_refl _)

/-- Recursion equation for `findall`. -/
theorem findall_eq (cs : Str) :
    findall cs =
      match matchLen cs with
      | some n => cs.take n :: findall (cs.drop n)
      | none =>
        match cs with
        | [] => []
        | _ :: rest => findall rest := by
  cases cs with
  | nil => rfl
  | cons c rest =>
    have hstep : findall (c :: rest) = findallF (rest.length + 1) (c :: rest) := rfl
    rw [hstep]
    simp only [findallF]
    cases hm : matchLen (c :: rest) with
    | some n =>
      have hp := matchLen_pos hm
      have hle := matchLen_le hm
      dsimp only
      rw [findallF_eq_findall rest.length ((c :: rest).drop n)
        (by simp at hle ⊢; omega)]
    | none =>
      dsimp only
      rw [findallF_eq_findall rest.length rest (le_refl _)]

/-- `__DIGIT_MAP.get(c, 'x')`: letter substitute for a leading digit. -/
def digitSub (c : Char) : Char :=
  if c = '0' then 'o' else if c = '1' then 'i' else if c = '2' then 'z'
  else if c = '3' then 'e' else if c = '4' then 'o' else if c = '5' then 's'
  else if c = '6' then 's' else if c = '7' then 'z' else if c = '8' then 'b'
  else if c = '9' then 'n' else 'x'

/-- The per-word transformation of `to_snake_case`:
`w if not w[0].isdigit() else f'{__get(w[0], __default)}{w[1:]}'`. -/
def replaceLeadingDigit (w : Str) : Str :=
  match w with
  | [] => []
  | c :: rest => if isDigitCh c then digitSub c :: rest else c :: rest

/-- `'_'.join`. -/
def joinUnderscore : List Str → Str
  | [] => []
  | [w] => w
  | w :: ws => w ++ '_' :: joinUnderscore ws

/-- The word list built by `to_snake_case` after the leading-digit fixup. -/
def snakeWords (cs : Str) : List Str :=
  (findall cs).map replaceLeadingDigit

/-- `to_snake_case`: regex segmentation, leading-digit substitution, then
`'_'.join(words).lower()`. -/
def to_snake_case (cs : Str) : Str :=
  pyLower (joinUnderscore (snakeWords cs))

example : to_snake_case ['D','e','v','i','c','e','T','y','p','e']
    = ['d','e','v','i','c','e','_','t','y','p','e'] := by decide

example : to_snake_case ['k','e','y','T','w','o'] = ['k','e','y','_','t','w','o'] := by
  decide

example : to_snake_case ['k','e','y','-','3'] = ['k','e','y','_','e'] := by decide

example : to_snake_case ['1','2','3','t','e','s','t']
    = ['i','2','3','t','e','s','t'] := by decide

example : to_snake_case ['F','o','r','!'] = ['f','o','r'] := by decide

example : to_snake_case ['h','e','y',' ','w','o','r','l','d','!']
    = ['h','e','y','_','w','o','r','l','d'] := by decide

/-! ### The container

`DotWizPlus` is a `dict` subclass with `__slots__ = ('__dict__',)`: an
instance is a pair of association lists, the dict store (the entries of the
`dict` itself, written by `dict.__setitem__`) and the attribute mapping
`self.__dict__` (read by attribute access and by the overridden
`__getitem__`). Python `dict`s are insertion-ordered with in-place
overwrite, which is exactly the behaviour of `alSet` below.

Values (`Val`) are scalars, plain dicts, lists, or `DotWizPlus` instances;
`Entries` and `Items` are the (mutually inductive) association lists and
value lists.

The process-wide `__SPECIAL_KEYS` cache only ever maps an original key `k`
to `to_snake_case k` (`plus.py` line 102), so a cache hit returns exactly
what the cache miss computes; the embedding therefore inlines
`to_snake_case` where the source consults the cache. -/

mutual

inductive Val where
  | prim : Nat → Val
  | pdict : Entries → Val
  | plist : Items → Val
  | dwz : Entries → Entries → Val
  deriving DecidableEq

inductive Entries where
  | nil : Entries
  | cons : Str → Val → Entries → Entries
  deriving DecidableEq

inductive Items where
  | nil : Items
  | cons : Val → Items → Items
  deriving DecidableEq

end

/-- Dict lookup `d[k]` as an option. -/
def alGet : Entries → Str → Option Val
  | .nil, _ => none
  | .cons k' v rest, k => if k' = k then some v else alGet rest k

/-- Dict membership `k in d`. -/
def alHas : Entries → Str → Bool
  | .nil, _ => false
  | .cons k' _ rest, k => decide (k' = k) || alHas rest k

/-- Dict assignment `d[k] = v`: overwrite in place, else append. -/
def alSet : Entries → Str → Val → Entries
  | .nil, k, v => .cons k v .nil
  | .cons k' v' rest, k, v =>
    if k' = k then .cons k' v rest else .cons k' v' (alSet rest k v)

/-- Dict deletion `del d[k]` (for a key that is present). -/
def alDel : Entries → Str → Entries
  | .nil, _ => .nil
  | .cons k' v' rest, k => if k' = k then rest else .cons k' v' (alDel rest k)

/-- `d.update(pairs)`: assign each pair in order. -/
def alSetAll : Entries → Entries → Entries
  | d, .nil => d
  | d, .cons k v rest => alSetAll (alSet d k v) rest

/-- Truthiness of a dict: nonempty. -/
def nonEmptyE : Entries → Bool
  | .nil => false
  | .cons _ _ _ => true

/-- The non-reserved-word key transformation of the upsert loop
(`plus.py` lines 97-102, cache inlined): transform to snake case unless the
key already equals its lowercase form and is a valid identifier. -/
def normKey (k : Str) : Str :=
  if decide (k = pyLower k) && isIdentifier k then k else to_snake_case k

/-- One iteration of the upsert loop after value resolution
(`plus.py` lines 91-106): store / attribute-mapping updates for one key. -/
def upsertEntry (s a : Entries) (k : Str) (v : Val) : Entries × Entries :=
  let lk := pyLower k
  if isKeyword lk then (alSet s k v, alSet a (lk ++ ['_']) v)
  else
    let k2 := normKey k
    (alSet s k2 v, alSet a k2 v)

mutual

/-- `__resolve_value__` is imported from `dotwiz/common.py`, which is not
among the sources. Modelled from the spec: a mapping value is recursively
converted into this same container type (`DotWizPlus(value)`, i.e. the
upsert loop run on a fresh instance), a sequence value is resolved
element-wise, and any other value passes through unchanged. This agrees
with the inlined copy of the same logic in the upsert loop (`plus.py`
lines 84-89, "this logic is the same as `__resolve_value__()`"). -/
def resolveVal : Val → Val
  | .pdict es => upsertInto es .nil .nil
  | .plist xs => .plist (resolveItems xs)
  | .prim n => .prim n
  | .dwz s a => .dwz s a

/-- `[__resolve_value__(e, DotWizPlus) for e in value]`. -/
def resolveItems : Items → Items
  | .nil => .nil
  | .cons v rest => .cons (resolveVal v) (resolveItems rest)

/-- The `for key in input_dict` loop of `__upsert_into_dot_wiz_plus__`
(`plus.py` lines 78-106), acting on the dict store `s` and the attribute
mapping `a`. The value resolution is the source's inlined copy of
`__resolve_value__`: `dict` becomes `DotWizPlus(value)`, `list` is
resolved element-wise. -/
def upsertInto : Entries → Entries → Entries → Val
  | .nil, s, a => .dwz s a
  | .cons k v rest, s, a =>
    let v2 :=
      match v with
      | .pdict es => upsertInto es .nil .nil
      | .plist xs => .plist (resolveItems xs)
      | x => x
    let p := upsertEntry s a k v2
    upsertInto rest p.1 p.2

end

/-- The inlined value resolution in the upsert loop is `__resolve_value__`
itself (as the source comment asserts). -/
theorem inline_resolve_eq (v : Val) :
    (match v with
      | .pdict es => upsertInto es .nil .nil
      | .plist xs => .plist (resolveItems xs)
      | x => x) = resolveVal v := by
  cases v <;> rfl

/-- `kwargs` merging at the head of `__upsert_into_dot_wiz_plus__`
(`plus.py` lines 70-76): with keyword pairs present, a nonempty positional
dict is updated in place with them; an empty positional dict is replaced
by the keyword dict. -/
def mergeKwargs (input kwargs : Entries) : Entries :=
  if nonEmptyE kwargs then
    if nonEmptyE input then alSetAll input kwargs else kwargs
  else input

/-- `__upsert_into_dot_wiz_plus__(self, input_dict, **kwargs)`:
`DotWizPlus.__init__` and `DotWizPlus.update`. -/
def upsertCall (self : Val) (input kwargs : Entries) : Val :=
  match self with
  | .dwz s a => upsertInto (mergeKwargs input kwargs) s a
  | v => v

/-- `DotWizPlus(input_dict, **kwargs)`: upsert into a fresh instance. -/
def dotWizPlus (input kwargs : Entries) : Val :=
  upsertCall (.dwz .nil .nil) input kwargs

/-- `make_dot_wiz_plus(*args, **kwargs)`: `kwargs.update(*args)` followed
by `DotWizPlus(kwargs)`. -/
def make_dot_wiz_plus (args kwargs : Entries) : Val :=
  dotWizPlus (alSetAll kwargs args) .nil

/-- The caller's positional dict after `__upsert_into_dot_wiz_plus__`
returns: lines 70-76 of `plus.py` update it in place with the keyword
pairs whenever both it and the keyword dict are nonempty. -/
def inputDictAfter (input kwargs : Entries) : Entries :=
  if nonEmptyE kwargs && nonEmptyE input then alSetAll input kwargs
  else input

/-- `__setitem_impl__` (`plus.py` lines 109-128), which is both
`DotWizPlus.__setitem__` and `DotWizPlus.__setattr__` (cache inlined as in
`normKey`). -/
def setItemImpl (self : Val) (k : Str) (v : Val) : Val :=
  match self with
  | .dwz s a =>
    let lk := pyLower k
    let v2 := resolveVal v
    if isKeyword lk then .dwz (alSet s k v2) (alSet a (lk ++ ['_']) v2)
    else
      let k2 := normKey k
      .dwz (alSet s k2 v2) (alSet a k2 v2)
  | x => x

/-- `DotWizPlus.__getitem__`: subscript access reads `self.__dict__`, the
attribute mapping. -/
def getItem (self : Val) (k : Str) : Option Val :=
  match self with
  | .dwz _ a => alGet a k
  | _ => none

/-- Attribute access `dw.k`: instance attribute lookup in `self.__dict__`
(`__slots__ = ('__dict__',)`, no `__getattr__` fallback). -/
def getAttr (self : Val) (k : Str) : Option Val :=
  match self with
  | .dwz _ a => alGet a k
  | _ => none

/-- `DotWizPlus.__delitem__` and `DotWizPlus.__delattr__`, both bound to
`dict.__delitem__`: remove the key from the dict store, raising
(`none`) when it is absent there; `self.__dict__` is not touched. -/
def delItem (self : Val) (k : Str) : Option Val :=
  match self with
  | .dwz s a => if alHas s k then some (.dwz (alDel s k) a) else none
  | _ => none

/-- A mutation step on a container: bulk upsert (`__init__` / `update`),
single-key set (`__setitem__` / `__setattr__`), or deletion
(`__delitem__` / `__delattr__`; a raising deletion leaves the container
unchanged). -/
inductive Op where
  | upd : Entries → Entries → Op
  | setK : Str → Val → Op
  | delK : Str → Op

/-- Apply one mutation step. -/
def applyOp (dw : Val) : Op → Val
  | .upd i kw => upsertCall dw i kw
  | .setK k v => setItemImpl dw k v
  | .delK k =>
    match delItem dw k with
    | some r => r
    | none => dw

/-- Run a sequence of mutation steps on a freshly constructed empty
container. -/
def runOps (ops : List Op) : Val := ops.foldl applyOp (dotWizPlus .nil .nil)

example :
    dotWizPlus (.cons ['k','e','y','-','3'] (.prim 7) .nil) .nil =
      .dwz (.cons ['k','e','y','_','e'] (.prim 7) .nil)
        (.cons ['k','e','y','_','e'] (.prim 7) .nil) := rfl

example :
    dotWizPlus (.cons ['F','o','r'] (.prim 1) .nil) .nil =
      .dwz (.cons ['F','o','r'] (.prim 1) .nil)
        (.cons ['f','o','r','_'] (.prim 1) .nil) := rfl

example :
    dotWizPlus (.cons ['a'] (.pdict (.cons ['b'] (.prim 2) .nil)) .nil) .nil =
      .dwz
        (.cons ['a'] (.dwz (.cons ['b'] (.prim 2) .nil)
          (.cons ['b'] (.prim 2) .nil)) .nil)
        (.cons ['a'] (.dwz (.cons ['b'] (.prim 2) .nil)
          (.cons ['b'] (.prim 2) .nil)) .nil) := rfl

/-! ### Association-list lemmas -/

theorem alGet_alSet_self : ∀ (m : Entries) (k : Str) (v : Val),
    alGet (alSet m k v) k = some v
  | .nil, k, v => by simp [alSet, alGet]
  | .cons k' v' rest, k, v => by
    simp only [alSet]
    split
    · rename_i he; simp [alGet, he]
    · rename_i he; simp [alGet, he]; exact alGet_alSet_self rest k v

theorem alGet_alSet_ne : ∀ (m : Entries) (k1 k : Str) (v : Val), k1 ≠ k →
    alGet (alSet m k1 v) k = alGet m k
  | .nil, k1, k, v, hne => by simp [alSet, alGet, hne]
  | .cons k' v' rest, k1, k, v, hne => by
    simp only [alSet]
    split
    · rename_i he; subst he; simp [alGet, hne]
    · simp only [alGet]
      split
      · rfl
      · exact alGet_alSet_ne rest k1 k v hne

/-- Pairwise-distinct keys (always true of dict stores built by Python). -/
def keysNodupE : Entries → Bool
  | .nil => true
  | .cons k _ rest => !alHas rest k && keysNodupE rest

theorem alHas_alDel_self : ∀ (s : Entries) (k : Str), keysNodupE s = true →
    alHas (alDel s k) k = false
  | .nil, _, _ => rfl
  | .cons k' v' rest, k, hn => by
    simp only [keysNodupE, Bool.and_eq_true, Bool.not_eq_true'] at hn
    simp only [alDel]
    split
    · rename_i he; subst he; exact hn.1
    · rename_i he
      simp only [alHas, Bool.or_eq_false_iff, decide_eq_false_iff_not]
      exact ⟨he, alHas_alDel_self rest k hn.2⟩

theorem alGet_alSetAll_not_has : ∀ (ps d : Entries) (k : Str),
    alHas ps k = false → alGet (alSetAll d ps) k = alGet d k
  | .nil, d, k, _ => rfl
  | .cons k1 v1 rest, d, k, h => by
    simp only [alHas, Bool.or_eq_false_iff, decide_eq_false_iff_not] at h
    simp only [alSetAll]
    rw [alGet_alSetAll_not_has rest (alSet d k1 v1) k h.2]
    exact alGet_alSet_ne d k1 k v1 h.1

theorem alGet_alSetAll_first : ∀ (args d : Entries) (k : Str) (v : Val),
    keysNodupE args = true → alGet args k = some v →
    alGet (alSetAll d args) k = some v
  | .nil, _, _, _, _, h => Option.noConfusion h
  | .cons k1 v1 rest, d, k, v, hn, h => by
    simp only [keysNodupE, Bool.and_eq_true, Bool.not_eq_true'] at hn
    simp only [alGet] at h
    simp only [alSetAll]
    split at h
    · rename_i he
      have hv := Option.some.inj h
      rw [← he, ← hv]
      rw [alGet_alSetAll_not_has rest (alSet d k1 v1) k1 hn.1]
      exact alGet_alSet_self d k1 v1
    · exact alGet_alSetAll_first rest (alSet d k1 v1) k v hn.2 h

theorem getItem_eq_getAttr (dw : Val) (k : Str) :
    getItem dw k = getAttr dw k := by
  cases dw <;> rfl

/-- One step of the upsert loop, with the inlined value resolution folded
into `resolveVal` (see `inline_resolve_eq`). -/
theorem upsertInto_cons (k : Str) (v : Val) (rest s a : Entries) :
    upsertInto (.cons k v rest) s a =
      upsertInto rest (upsertEntry s a k (resolveVal v)).1
        (upsertEntry s a k (resolveVal v)).2 := by
  cases v <;> rfl

/-! ### Claims -/

/-- **C1.** The claim (and the `DotWizPlus` docstring, `plus.py` lines
139-142) says inserting `{"key-3": 3.21}` makes the value reachable as the
attribute `key_3`. The code disagrees: the leading-digit substitution in
`to_snake_case` is applied to *every* token (lines 35-36), so the token
`"3"` becomes `"e"` and `"key-3"` normalizes to `"key_e"`, not `"key_3"`;
the attribute `key_3` does not exist. -/
theorem c1_key3_normalizes_to_key_e :
    to_snake_case ['k','e','y','-','3'] = ['k','e','y','_','e'] ∧
    getAttr (dotWizPlus (.cons ['k','e','y','-','3'] (.prim 321) .nil) .nil)
      ['k','e','y','_','3'] = none ∧
    getAttr (dotWizPlus (.cons ['k','e','y','-','3'] (.prim 321) .nil) .nil)
      ['k','e','y','_','e'] = some (.prim 321) ∧
    getItem (dotWizPlus (.cons ['k','e','y','-','3'] (.prim 321) .nil) .nil)
      ['k','e','y','_','3'] = none :=
  ⟨rfl, rfl, rfl, rfl⟩

/-- **C2, counterexample.** For the reserved-word key `"For"` the claim
asserts subscript access under `"For"` and attribute access under both
`"For"` and `"for_"` succeed. In fact only `"for_"` is reachable:
the upsert writes the original key into the dict store and `for_` into
`__dict__`, but `__getitem__` reads `__dict__`, where `"For"` is absent;
attribute lookup also reads `__dict__`. -/
theorem c2_reserved_word_counterexample :
    isKeyword (pyLower ['F','o','r']) = true ∧
    getItem (dotWizPlus (.cons ['F','o','r'] (.prim 1) .nil) .nil)
      ['F','o','r'] = none ∧
    getAttr (dotWizPlus (.cons ['F','o','r'] (.prim 1) .nil) .nil)
      ['F','o','r'] = none ∧
    getAttr (dotWizPlus (.cons ['F','o','r'] (.prim 1) .nil) .nil)
      ['f','o','r','_'] = some (.prim 1) ∧
    alHas (.cons ['F','o','r'] (.prim 1) .nil) ['F','o','r'] = true :=
  ⟨rfl, rfl, rfl, rfl, rfl⟩

/-- **C2, amended.** Inserting a key whose lowercase form is a reserved
word stores the value under the original key in the dict store, and under
`<lowercase>_` in the attribute mapping; the value is reachable by
attribute access and by subscript access (which reads the same mapping)
under `<lowercase>_` — but not under the original key form. -/
theorem c2_reserved_word_amended (s a : Entries) (k : Str) (v : Val)
    (h : isKeyword (pyLower k) = true) :
    alGet (upsertEntry s a k v).1 k = some v ∧
    alGet (upsertEntry s a k v).2 (pyLower k ++ ['_']) = some v ∧
    getItem (.dwz (upsertEntry s a k v).1 (upsertEntry s a k v).2)
      (pyLower k ++ ['_']) = some v ∧
    getAttr (.dwz (upsertEntry s a k v).1 (upsertEntry s a k v).2)
      (pyLower k ++ ['_']) = some v := by
  simp only [upsertEntry, h, if_true, getItem, getAttr]
  exact ⟨alGet_alSet_self s k v, alGet_alSet_self a _ v,
    alGet_alSet_self a _ v, alGet_alSet_self a _ v⟩

theorem c2_reserved_word_witness :
    isKeyword (pyLower ['F','o','r']) = true ∧
    alGet (upsertEntry .nil .nil ['F','o','r'] (.prim 1)).2
      (pyLower ['F','o','r'] ++ ['_']) = some (.prim 1) :=
  ⟨rfl, (c2_reserved_word_amended .nil .nil ['F','o','r'] (.prim 1) rfl).2.1⟩

/-- **C3, counterexample.** `make_dot_wiz_plus` runs `kwargs.update(*args)`
(`plus.py` line 53): the positional pairs are written *into* the keyword
dict, so on a key collision the positional value wins, not the keyword
value as claimed. With positional `("a", 1)` and keyword `("a", 2)` the
stored value is `1`. -/
theorem c3_kwargs_lose_counterexample :
    getItem (make_dot_wiz_plus (.cons ['a'] (.prim 1) .nil)
      (.cons ['a'] (.prim 2) .nil)) ['a'] = some (.prim 1) ∧
    getItem (make_dot_wiz_plus (.cons ['a'] (.prim 1) .nil)
      (.cons ['a'] (.prim 2) .nil)) ['a'] ≠ some (.prim 2) :=
  ⟨rfl, by decide⟩

/-- **C3, amended.** On a key collision between the positional iterable
and the keyword arguments of `make_dot_wiz_plus`, the *positional* value
is the one kept by the merge that feeds construction (the positional
pairs are written into the keyword dict by `kwargs.update(*args)`). -/
theorem c3_positional_wins (args kwargs : Entries) (k : Str) (v : Val)
    (hn : keysNodupE args = true) (h : alGet args k = some v) :
    make_dot_wiz_plus args kwargs = dotWizPlus (alSetAll kwargs args) .nil ∧
    alGet (alSetAll kwargs args) k = some v :=
  ⟨rfl, alGet_alSetAll_first args kwargs k v hn h⟩

theorem c3_positional_wins_witness :
    alGet (alSetAll (.cons ['a'] (.prim 2) .nil)
      (.cons ['a'] (.prim 1) .nil)) ['a'] = some (.prim 1) :=
  (c3_positional_wins (.cons ['a'] (.prim 1) .nil)
    (.cons ['a'] (.prim 2) .nil) ['a'] (.prim 1) rfl rfl).2

/-- **C4, counterexample.** Deleting a present key (`del dw["a"]` or
`del dw.a`, both `dict.__delitem__`) removes it only from the dict store;
`self.__dict__` is untouched, and both subscript and attribute access read
`self.__dict__`, so both still succeed afterwards — contradicting the
claim that neither succeeds. -/
theorem c4_delete_counterexample :
    delItem (dotWizPlus (.cons ['a'] (.prim 1) .nil) .nil) ['a'] =
      some (.dwz .nil (.cons ['a'] (.prim 1) .nil)) ∧
    getItem (.dwz .nil (.cons ['a'] (.prim 1) .nil)) ['a'] =
      some (.prim 1) ∧
    getAttr (.dwz .nil (.cons ['a'] (.prim 1) .nil)) ['a'] =
      some (.prim 1) :=
  ⟨rfl, rfl, rfl⟩

/-- **C4, amended.** Deleting a present key (by subscript or attribute
deletion — both are `dict.__delitem__`) removes it from the dict store
only; the attribute mapping is untouched, so subscript access and
attribute access (which both read the attribute mapping) are entirely
unaffected by the deletion. -/
theorem c4_delete_store_only (s a : Entries) (k : Str)
    (hn : keysNodupE s = true) (h : alHas s k = true) :
    delItem (.dwz s a) k = some (.dwz (alDel s k) a) ∧
    alHas (alDel s k) k = false ∧
    (∀ k2, getItem (.dwz (alDel s k) a) k2 = getItem (.dwz s a) k2) ∧
    (∀ k2, getAttr (.dwz (alDel s k) a) k2 = getAttr (.dwz s a) k2) :=
  ⟨by simp [delItem, h], alHas_alDel_self s k hn, fun _ => rfl, fun _ => rfl⟩

theorem c4_delete_store_only_witness :
    delItem (.dwz (.cons ['a'] (.prim 1) .nil) (.cons ['a'] (.prim 1) .nil))
      ['a'] = some (.dwz .nil (.cons ['a'] (.prim 1) .nil)) ∧
    getItem (.dwz (alDel (.cons ['a'] (.prim 1) .nil) ['a'])
      (.cons ['a'] (.prim 1) .nil)) ['a'] =
      getItem (.dwz (.cons ['a'] (.prim 1) .nil)
        (.cons ['a'] (.prim 1) .nil)) ['a'] :=
  ⟨(c4_delete_store_only (.cons ['a'] (.prim 1) .nil)
      (.cons ['a'] (.prim 1) .nil) ['a'] rfl rfl).1,
   (c4_delete_store_only (.cons ['a'] (.prim 1) .nil)
      (.cons ['a'] (.prim 1) .nil) ['a'] rfl rfl).2.2.1 ['a']⟩

/-- **C6.** Setting a single key (`dw[k] = v` or `dw.k = v`, both
`__setitem_impl__`) leaves the container in exactly the state produced by
the bulk upsert of the one-entry mapping `{k: v}` (`update({k: v})`,
`__upsert_into_dot_wiz_plus__`): same dict store and same attribute
mapping, with identical key normalization and value resolution. -/
theorem c6_setitem_eq_single_upsert (s a : Entries) (k : Str) (v : Val) :
    setItemImpl (.dwz s a) k v =
      upsertCall (.dwz s a) (.cons k v .nil) .nil := by
  show _ = upsertInto (mergeKwargs (.cons k v .nil) .nil) s a
  have hm : mergeKwargs (.cons k v .nil) .nil = .cons k v .nil := rfl
  rw [hm, upsertInto_cons]
  show setItemImpl (.dwz s a) k v =
    Val.dwz (upsertEntry s a k (resolveVal v)).1
      (upsertEntry s a k (resolveVal v)).2
  simp only [setItemImpl, upsertEntry]
  cases hc : isKeyword (pyLower k) <;> simp [hc]

/-- **C8.** Both `__getitem__` and attribute lookup read `self.__dict__`,
so after any sequence of upserts, sets and deletes, every key reachable by
subscript is reachable by attribute access with the same value. -/
theorem c8_subscript_reachable_implies_attribute (ops : List Op) (k : Str)
    (v : Val) (h : getItem (runOps ops) k = some v) :
    getAttr (runOps ops) k = some v := by
  rw [← getItem_eq_getAttr]
  exact h

theorem c8_witness :
    getAttr (runOps [Op.setK ['a'] (.prim 1)]) ['a'] = some (.prim 1) :=
  c8_subscript_reachable_implies_attribute [Op.setK ['a'] (.prim 1)]
    ['a'] (.prim 1) rfl

/-- **C10.** When both a nonempty positional dict and keyword pairs are
passed, `input_dict.update(kwargs)` (`plus.py` line 74) writes the keyword
pairs into the caller's dict before iteration: the argument dict the
caller still holds equals its updated form (and, in general, differs from
its original contents, as the concrete instance shows), and the upsert
loop iterates over exactly that updated dict. -/
theorem c10_input_dict_updated (input kwargs : Entries)
    (hi : nonEmptyE input = true) (hk : nonEmptyE kwargs = true) :
    inputDictAfter input kwargs = alSetAll input kwargs ∧
    mergeKwargs input kwargs = alSetAll input kwargs ∧
    inputDictAfter (.cons ['a'] (.prim 0) .nil) (.cons ['b'] (.prim 1) .nil)
      ≠ .cons ['a'] (.prim 0) .nil := by
  refine ⟨?_, ?_, by decide⟩
  · simp [inputDictAfter, hi, hk]
  · simp [mergeKwargs, hi, hk]

theorem c10_witness :
    inputDictAfter (.cons ['a'] (.prim 0) .nil) (.cons ['b'] (.prim 1) .nil)
      = alSetAll (.cons ['a'] (.prim 0) .nil) (.cons ['b'] (.prim 1) .nil) :=
  (c10_input_dict_updated (.cons ['a'] (.prim 0) .nil)
    (.cons ['b'] (.prim 1) .nil) rfl rfl).1

/-! ### C9: leading-digit substitution -/

theorem char_toNat_ofNat (n : Nat) (h : n.isValidChar) :
    (Char.ofNat n).toNat = n := by
  unfold Char.ofNat
  simp [h]
  unfold Char.ofNatAux
  show (UInt32.ofNatCore n _).toNat = n
  simp [UInt32.ofNatCore, UInt32.toNat, BitVec.ofNatLt]

theorem digitSub_not_digit (c : Char) : isDigitCh (digitSub c) = false := by
  unfold digitSub
  repeat' split
  all_goals decide

theorem repl_head_not_digit {w : Str} {c : Char} {r : Str}
    (h : replaceLeadingDigit w = c :: r) : isDigitCh c = false := by
  match w with
  | [] => exact List.noConfusion h
  | c0 :: r0 =>
    simp only [replaceLeadingDigit] at h
    split at h
    · cases h; exact digitSub_not_digit c0
    · rename_i hd; cases h
      exact Bool.not_eq_true _ ▸ eq_false_of_ne_true hd

theorem lowerCh_not_digit {c : Char} (h : isDigitCh c = false) :
    isDigitCh (lowerCh c) = false := by
  unfold lowerCh
  split
  · rename_i hu
    simp only [isUpperCh, Bool.and_eq_true, decide_eq_true_iff] at hu
    have hv : (c.toNat + 32).isValidChar := Or.inl (by omega)
    simp only [isDigitCh, char_toNat_ofNat _ hv, Bool.and_eq_false_iff,
      decide_eq_false_iff_not]
    right; omega
  · exact h

theorem findall_mem_ne_nil_fuel :
    ∀ (fuel : Nat) (cs : Str), cs.length ≤ fuel →
      ∀ w ∈ findall cs, w ≠ [] := by
  intro fuel
  induction fuel with
  | zero =>
    intro cs hl w hw
    match cs with
    | [] => cases hw
    | c :: r => simp at hl
  | succ k ih =>
    intro cs hl w hw
    rw [findall_eq cs] at hw
    split at hw
    · rename_i n hm
      have hp := matchLen_pos hm
      have hle := matchLen_le hm
      cases hw with
      | head =>
        match cs, hp, hm with
        | c :: r, hp, hm =>
          obtain ⟨m, rfl⟩ : ∃ m, n = m + 1 := ⟨n - 1, by omega⟩
          simp
      | tail _ hw2 =>
        have hcs : cs ≠ [] := by
          intro he; subst he; exact Option.noConfusion hm
        have hd : (cs.drop n).length ≤ k := by
          match cs with
          | [] => exact absurd rfl hcs
          | c :: r => simp at hl ⊢; omega
        exact ih (cs.drop n) hd w hw2
    · cases cs with
      | nil => exact absurd hw (by simp)
      | cons c rest =>
        dsimp only at hw
        have hr : rest.length ≤ k := by simp at hl; omega
        exact ih rest hr w hw

theorem findall_mem_ne_nil (cs : Str) : ∀ w ∈ findall cs, w ≠ [] :=
  findall_mem_ne_nil_fuel cs.length cs (le_refl _)

theorem joinUnderscore_cons_head (w : Str) (ws : List Str) :
    ∃ t, joinUnderscore (w :: ws) = w ++ t := by
  match ws with
  | [] => exact ⟨[], by simp [joinUnderscore]⟩
  | w2 :: ws2 => exact ⟨'_' :: joinUnderscore (w2 :: ws2), rfl⟩

/-- **C9.** The word list of `to_snake_case` is the regex token list with
the leading-digit fixup applied to every token; a token starting with a
digit has exactly that digit replaced through `__DIGIT_MAP` (with the
listed letter substitutes); consequently a nonempty result of
`to_snake_case` never begins with a digit, as in `"123test" -> "i23test"`. -/
theorem c9_leading_digit_substitution (s : Str) :
    snakeWords s = (findall s).map replaceLeadingDigit ∧
    (∀ w c rest, w ∈ findall s → w = c :: rest → isDigitCh c = true →
      replaceLeadingDigit w = digitSub c :: rest) ∧
    (digitSub '0' = 'o' ∧ digitSub '1' = 'i' ∧ digitSub '2' = 'z' ∧
     digitSub '3' = 'e' ∧ digitSub '4' = 'o' ∧ digitSub '5' = 's' ∧
     digitSub '6' = 's' ∧ digitSub '7' = 'z' ∧ digitSub '8' = 'b' ∧
     digitSub '9' = 'n') ∧
    (∀ c rest, to_snake_case s = c :: rest → isDigitCh c = false) ∧
    to_snake_case ['1','2','3','t','e','s','t']
      = ['i','2','3','t','e','s','t'] := by
  refine ⟨rfl, ?_, by decide, ?_, rfl⟩
  · intro w c rest hw hshape hdig
    subst hshape
    simp [replaceLeadingDigit, hdig]
  · intro c rest h
    unfold to_snake_case snakeWords at h
    cases hf : findall s with
    | nil => rw [hf] at h; exact List.noConfusion h
    | cons w ws =>
      rw [hf] at h
      have hw : w ≠ [] := findall_mem_ne_nil s w (hf ▸ List.mem_cons_self w ws)
      match hrw : replaceLeadingDigit w with
      | [] =>
        match w, hw with
        | c0 :: r0, _ =>
          simp only [replaceLeadingDigit] at hrw
          split at hrw <;> exact List.noConfusion hrw
      | c0 :: r0 =>
        have hnd : isDigitCh c0 = false := repl_head_not_digit hrw
        obtain ⟨t, ht⟩ := joinUnderscore_cons_head (replaceLeadingDigit w)
          (ws.map replaceLeadingDigit)
        rw [List.map_cons, ht, hrw] at h
        simp only [pyLower, List.cons_append, List.map_cons] at h
        cases h
        exact lowerCh_not_digit hnd

theorem c9_witness : isDigitCh 'i' = false :=
  (c9_leading_digit_substitution ['1','2','3','t','e','s','t']).2.2.2.1 'i'
    ['2','3','t','e','s','t'] rfl

/-! ### C5: fixpoints of `to_snake_case`

The spec claims every lowercase identifier is a fixpoint. That fails for
identifiers with leading / trailing / doubled underscores (the segmentation
drops empty runs: `"x_" -> "x"`) and for digits following an underscore
(the leading-digit fixup rewrites them: `"a_1" -> "a_i"`). The fixpoints
among lowercase identifiers are exactly the strings `splitU` cuts into
nonempty words of lowercase letters / digits, each beginning with a
letter. -/

/-- Split on `'_'`, keeping empty runs (like Python `str.split('_')`). -/
def splitU : Str → List Str
  | [] => [[]]
  | c :: rest =>
    if c = '_' then [] :: splitU rest
    else
      match splitU rest with
      | [] => [[c]]
      | w :: ws => (c :: w) :: ws

/-- A nonempty run of lowercase letters / digits starting with a letter. -/
def lcWord : Str → Bool
  | [] => false
  | c :: rest => isLowerCh c && rest.all isLowerOrDigit

/-- The decidable fixpoint condition: every `'_'`-separated run is an
`lcWord` (hence no leading / trailing / doubled underscore and no digit
right after an underscore or at the start). -/
def isSnakeNormal (s : Str) : Bool := (splitU s).all lcWord

theorem join_cons_cons (w w2 : Str) (ws : List Str) :
    joinUnderscore (w :: w2 :: ws) = w ++ '_' :: joinUnderscore (w2 :: ws) :=
  rfl

theorem splitU_ne_nil : ∀ (s : Str), splitU s ≠ []
  | [] => by simp [splitU]
  | c :: rest => by
    simp only [splitU]
    split
    · simp
    · split <;> simp

theorem join_splitU : ∀ (s : Str), joinUnderscore (splitU s) = s
  | [] => rfl
  | c :: rest => by
    simp only [splitU]
    split
    · rename_i he
      have hne := splitU_ne_nil rest
      match hsp : splitU rest with
      | [] => exact absurd hsp hne
      | w :: ws =>
        have hj := join_splitU rest
        rw [hsp] at hj
        subst he
        show joinUnderscore ([] :: w :: ws) = '_' :: rest
        rw [join_cons_cons]
        simp only [List.nil_append]
        rw [hj]
    · rename_i he
      have hne := splitU_ne_nil rest
      match hsp : splitU rest with
      | [] => exact absurd hsp hne
      | w :: ws =>
        have hj := join_splitU rest
        rw [hsp] at hj
        match ws with
        | [] =>
          show joinUnderscore [c :: w] = c :: rest
          show c :: w = c :: rest
          have : joinUnderscore [w] = w := rfl
          rw [this] at hj
          rw [hj]
        | w2 :: ws2 =>
          show joinUnderscore ((c :: w) :: w2 :: ws2) = c :: rest
          rw [join_cons_cons]
          simp only [List.cons_append]
          rw [← hj]
          rfl

theorem takeWhile_all_append (p : Char → Bool) :
    ∀ (l1 l2 : List Char), l1.all p = true →
      (l1 ++ l2).takeWhile p = l1 ++ l2.takeWhile p
  | [], _, _ => rfl
  | c :: rest, l2, h => by
    simp only [List.all_cons, Bool.and_eq_true] at h
    simp only [List.cons_append, List.takeWhile_cons, h.1, if_true]
    rw [takeWhile_all_append p rest l2 h.2]

theorem lcWord_head_facts {c : Char} (hc : isLowerCh c = true) :
    isDigitCh c = false ∧ isUpperCh c = false := by
  simp only [isLowerCh, Bool.and_eq_true, decide_eq_true_iff] at hc
  constructor
  · simp only [isDigitCh, Bool.and_eq_false_iff, decide_eq_false_iff_not]
    right; omega
  · simp only [isUpperCh, Bool.and_eq_false_iff, decide_eq_false_iff_not]
    right; omega

theorem matchLen_word (w t : Str) (hw : lcWord w = true)
    (ht : t = [] ∨ ∃ t2, t = '_' :: t2) :
    matchLen (w ++ t) = some w.length := by
  match w, hw with
  | c :: r, hw =>
    simp only [lcWord, Bool.and_eq_true] at hw
    obtain ⟨hc, hr⟩ := hw
    obtain ⟨hnd, hnu⟩ := lcWord_head_facts hc
    have h1 : alt1Len ((c :: r) ++ t) = none := by
      simp [alt1Len, hnd]
    have hrun : ((c :: r) ++ t).takeWhile isLowerOrDigit = c :: r := by
      rw [takeWhile_all_append isLowerOrDigit (c :: r) t
        (by simp [List.all_cons, isLowerOrDigit, hc, hr])]
      cases ht with
      | inl he => subst he; simp
      | inr he =>
        obtain ⟨t2, rfl⟩ := he
        have hu : isLowerOrDigit '_' = false := by decide
        simp [List.takeWhile_cons, hu]
    have h2 : alt2Len ((c :: r) ++ t) = some (c :: r).length := by
      simp only [List.cons_append, alt2Len, hnu, Bool.false_eq_true,
        if_false]
      rw [show (c :: (r ++ t)).takeWhile isLowerOrDigit = c :: r from hrun]
      simp
    unfold matchLen
    rw [h1, h2]

theorem matchLen_underscore (t : Str) : matchLen ('_' :: t) = none := by
  have h1 : isDigitCh '_' = false := by decide
  have h2 : isUpperCh '_' = false := by decide
  have h3 : isLowerOrDigit '_' = false := by decide
  have ht1 : ('_' :: t).takeWhile isUpperCh = [] := by
    simp [List.takeWhile_cons, h2]
  have ht2 : ('_' :: t).takeWhile isLowerOrDigit = [] := by
    simp [List.takeWhile_cons, h3]
  have ht3 : ('_' :: t).takeWhile isDigitCh = [] := by
    simp [List.takeWhile_cons, h1]
  simp [matchLen, alt1Len, alt2Len, alt3Len, alt3Try, alt4Len, alt5Len,
    alt6Len, h1, h2, ht1, ht2, ht3]

theorem findall_words : ∀ (ws : List Str), ws ≠ [] → ws.all lcWord = true →
    findall (joinUnderscore ws) = ws
  | [], hne, _ => absurd rfl hne
  | [w], _, h => by
    simp only [List.all_cons, List.all_nil, Bool.and_true] at h
    show findall w = [w]
    rw [findall_eq w]
    have hm : matchLen (w ++ []) = some w.length :=
      matchLen_word w [] h (Or.inl rfl)
    rw [List.append_nil] at hm
    rw [hm]
    dsimp only
    rw [List.take_length, List.drop_length]
    rfl
  | w :: w2 :: ws, _, h => by
    simp only [List.all_cons, Bool.and_eq_true] at h
    obtain ⟨h1, h2, h3⟩ := h
    rw [join_cons_cons]
    rw [findall_eq]
    have hm : matchLen (w ++ '_' :: joinUnderscore (w2 :: ws)) =
        some w.length := matchLen_word w _ h1 (Or.inr ⟨_, rfl⟩)
    rw [hm]
    dsimp only
    rw [List.take_left, List.drop_left]
    congr 1
    rw [findall_eq]
    rw [matchLen_underscore]
    dsimp only
    exact findall_words (w2 :: ws) (by simp)
      (by simp only [List.all_cons, Bool.and_eq_true]; exact ⟨h2, h3⟩)

theorem repl_id_of_lcWord {w : Str} (hw : lcWord w = true) :
    replaceLeadingDigit w = w := by
  match w, hw with
  | c :: r, hw =>
    simp only [lcWord, Bool.and_eq_true] at hw
    obtain ⟨hnd, _⟩ := lcWord_head_facts hw.1
    simp [replaceLeadingDigit, hnd]

theorem lcWord_not_upper {w : Str} (hw : lcWord w = true) :
    ∀ c ∈ w, isUpperCh c = false := by
  match w, hw with
  | c0 :: r, hw =>
    simp only [lcWord, Bool.and_eq_true] at hw
    intro c hc
    cases hc with
    | head => exact (lcWord_head_facts hw.1).2
    | tail _ hm =>
      have := List.all_eq_true.mp hw.2 c hm
      simp only [isLowerOrDigit, Bool.or_eq_true, isLowerCh, isDigitCh,
        Bool.and_eq_true, decide_eq_true_iff] at this
      simp only [isUpperCh, Bool.and_eq_false_iff, decide_eq_false_iff_not]
      rcases this with h | h
      · right; omega
      · left; omega

theorem join_not_upper : ∀ (ws : List Str), ws.all lcWord = true →
    ∀ c ∈ joinUnderscore ws, isUpperCh c = false
  | [], _, c, hc => absurd hc (List.not_mem_nil c)
  | [w], h, c, hc => by
    simp only [List.all_cons, List.all_nil, Bool.and_true] at h
    exact lcWord_not_upper h c hc
  | w :: w2 :: ws, h, c, hc => by
    simp only [List.all_cons, Bool.and_eq_true] at h
    obtain ⟨h1, h2, h3⟩ := h
    rw [join_cons_cons] at hc
    rcases List.mem_append.mp hc with hm | hm
    · exact lcWord_not_upper h1 c hm
    · cases hm with
      | head => decide
      | tail _ hm2 =>
        exact join_not_upper (w2 :: ws)
          (by simp only [List.all_cons, Bool.and_eq_true]; exact ⟨h2, h3⟩)
          c hm2

theorem pyLower_fix : ∀ (l : Str), (∀ c ∈ l, isUpperCh c = false) →
    pyLower l = l
  | [], _ => rfl
  | c :: rest, h => by
    have hc := h c (by simp)
    show lowerCh c :: pyLower rest = c :: rest
    rw [pyLower_fix rest (fun x hx => h x (by simp [hx]))]
    unfold lowerCh
    rw [hc]
    simp

/-- **C5, counterexample.** `"x_"` is lowercase and a valid identifier,
but `to_snake_case` drops the trailing underscore: the claim that every
lowercase identifier is a fixpoint is false. -/
theorem c5_counterexample :
    pyLower ['x','_'] = ['x','_'] ∧ isIdentifier ['x','_'] = true ∧
    to_snake_case ['x','_'] = ['x'] ∧
    to_snake_case ['x','_'] ≠ ['x','_'] :=
  ⟨rfl, rfl, rfl, by decide⟩

/-- **C5, amended.** `to_snake_case` fixes every string that consists of
underscore-separated nonempty runs of lowercase letters and digits, each
run beginning with a letter (equivalently: a lowercase identifier with no
leading, trailing or doubled underscore and no digit immediately after an
underscore). -/
theorem c5_snake_normal_fixpoint (s : Str) (h : isSnakeNormal s = true) :
    to_snake_case s = s := by
  unfold isSnakeNormal at h
  have hne := splitU_ne_nil s
  have hj := join_splitU s
  have hf := findall_words (splitU s) hne h
  rw [hj] at hf
  unfold to_snake_case snakeWords
  rw [hf]
  have hmap : (splitU s).map replaceLeadingDigit = splitU s := by
    have h2 : ∀ w ∈ splitU s, replaceLeadingDigit w = id w := fun w hw =>
      repl_id_of_lcWord (List.all_eq_true.mp h w hw)
    rw [List.map_congr_left h2, List.map_id]
  rw [hmap]
  have hl := pyLower_fix (joinUnderscore (splitU s)) (join_not_upper _ h)
  rw [hj] at hl
  rw [hj, hl]

theorem c5_witness :
    isSnakeNormal ['a','b','1','_','c','d'] = true ∧
    to_snake_case ['a','b','1','_','c','d'] = ['a','b','1','_','c','d'] :=
  ⟨rfl, c5_snake_normal_fixpoint ['a','b','1','_','c','d'] rfl⟩

/-! ### C7: round trip through `to_dict`

`to_dict` is `__convert_to_dict__` from `dotwiz/common.py`, which is not
among the sources; it is modelled from the spec (section 4.4): recursively
walk the container and any nested containers, producing an equivalent
plain structure — the inverse of the value resolution performed during
insert. The walk visits the container's own mapping entries (the dict
store). -/

mutual

/-- Modelled from the spec: `__convert_to_dict__` of `dotwiz/common.py`
(not in `src/`), the `to_dict` method: a container becomes a plain dict of
its entries, recursively; lists are converted element-wise; other values
pass through. -/
def toDictVal : Val → Val
  | .dwz s _ => .pdict (toDictEntries s)
  | .plist xs => .plist (toDictItems xs)
  | .prim n => .prim n
  | .pdict es => .pdict es

/-- Entry-wise conversion of a dict store (see `toDictVal`). -/
def toDictEntries : Entries → Entries
  | .nil => .nil
  | .cons k v rest => .cons k (toDictVal v) (toDictEntries rest)

/-- Element-wise conversion of a list value (see `toDictVal`). -/
def toDictItems : Items → Items
  | .nil => .nil
  | .cons v rest => .cons (toDictVal v) (toDictItems rest)

end

/-- The dict-store key the upsert loop uses for a given original key. -/
def storeKeyOf (k : Str) : Str :=
  if isKeyword (pyLower k) then k else normKey k

/-- The attribute-mapping key the upsert loop uses for a given original
key. -/
def attrKeyOf (k : Str) : Str :=
  if isKeyword (pyLower k) then pyLower k ++ ['_'] else normKey k

/-- A key the upsert loop stores under itself (reserved-word keys, and
keys fixed by normalization). Every key in a dict store built by the
upsert loop is of this form, except keys that *normalize to* a reserved
word (e.g. `"For!" -> "for"`), which break the round trip. -/
def stableKey (k : Str) : Bool := decide (storeKeyOf k = k)

/-- The dict store after upserting entries (with already-resolved values)
into the accumulator `acc`. -/
def storeFoldOf : Entries → Entries → Entries
  | acc, .nil => acc
  | acc, .cons k v rest => storeFoldOf (alSet acc (storeKeyOf k) v) rest

/-- The attribute mapping after upserting entries (with already-resolved
values) into the accumulator `acc`. -/
def attrsFoldOf : Entries → Entries → Entries
  | acc, .nil => acc
  | acc, .cons k v rest => attrsFoldOf (alSet acc (attrKeyOf k) v) rest

/-- The attribute mapping determined by a dict store. -/
def attrsOf (s : Entries) : Entries := attrsFoldOf .nil s

/-- List append on entries. -/
def appendE : Entries → Entries → Entries
  | .nil, y => y
  | .cons k v rest, y => .cons k v (appendE rest y)

/-- Every key of the first dict is absent from the second. -/
def keysFresh : Entries → Entries → Bool
  | .nil, _ => true
  | .cons k _ rest, acc => !alHas acc k && keysFresh rest acc

mutual

/-- Containers reachable by construction from benign input (no key
normalizing to a reserved word): the store's keys are stable and pairwise
distinct, its values are recursively well-formed and resolved (no plain
dict below a container), and the attribute mapping is the one the upsert
loop derives from the store. -/
def wfVal : Val → Bool
  | .prim _ => true
  | .pdict _ => false
  | .plist xs => wfItems xs
  | .dwz s a => wfEntries s && keysNodupE s && decide (a = attrsOf s)

/-- Store entries: stable keys, well-formed values (see `wfVal`). -/
def wfEntries : Entries → Bool
  | .nil => true
  | .cons k v rest => stableKey k && wfVal v && wfEntries rest

/-- Element-wise well-formedness (see `wfVal`). -/
def wfItems : Items → Bool
  | .nil => true
  | .cons v rest => wfVal v && wfItems rest

end

theorem upsertEntry_eq (s a : Entries) (k : Str) (v : Val) :
    upsertEntry s a k v =
      (alSet s (storeKeyOf k) v, alSet a (attrKeyOf k) v) := by
  unfold upsertEntry storeKeyOf attrKeyOf
  cases hc : isKeyword (pyLower k) <;> simp [hc]

theorem alHas_appendE : ∀ (x y : Entries) (k : Str),
    alHas (appendE x y) k = (alHas x k || alHas y k)
  | .nil, y, k => by simp [appendE, alHas]
  | .cons k1 v1 rest, y, k => by
    simp only [appendE, alHas, alHas_appendE rest y k, Bool.or_assoc]

theorem alSet_fresh : ∀ (m : Entries) (k : Str) (v : Val),
    alHas m k = false → alSet m k v = appendE m (.cons k v .nil)
  | .nil, k, v, _ => rfl
  | .cons k1 v1 rest, k, v, h => by
    simp only [alHas, Bool.or_eq_false_iff, decide_eq_false_iff_not] at h
    simp only [alSet, appendE]
    rw [if_neg h.1]
    rw [alSet_fresh rest k v h.2]

theorem appendE_single_cons (k : Str) (v : Val) (y : Entries) :
    appendE (.cons k v .nil) y = .cons k v y := rfl

theorem appendE_assoc : ∀ (x y z : Entries),
    appendE (appendE x y) z = appendE x (appendE y z)
  | .nil, _, _ => rfl
  | .cons k v rest, y, z => by
    simp only [appendE]
    rw [appendE_assoc rest y z]

theorem keysFresh_nil_acc : ∀ (es : Entries), keysFresh es .nil = true
  | .nil => rfl
  | .cons k v rest => by
    simp only [keysFresh, alHas, Bool.not_false, Bool.true_and]
    exact keysFresh_nil_acc rest

theorem keysFresh_extend : ∀ (rest acc : Entries) (k : Str) (v : Val),
    keysFresh rest acc = true → alHas rest k = false →
    keysFresh rest (appendE acc (.cons k v .nil)) = true
  | .nil, _, _, _, _, _ => rfl
  | .cons k1 v1 r2, acc, k, v, hfr, hh => by
    simp only [keysFresh, Bool.and_eq_true, Bool.not_eq_true'] at hfr
    simp only [alHas, Bool.or_eq_false_iff, decide_eq_false_iff_not] at hh
    simp only [keysFresh, Bool.and_eq_true, Bool.not_eq_true']
    constructor
    · rw [alHas_appendE]
      simp only [hfr.1, alHas, Bool.or_false, Bool.false_or,
        decide_eq_false_iff_not]
      exact fun he => hh.1 he.symm
    · exact keysFresh_extend r2 acc k v hfr.2 hh.2

theorem appendE_nil : ∀ (x : Entries), appendE x .nil = x
  | .nil => rfl
  | .cons k v rest => by
    simp only [appendE]
    rw [appendE_nil rest]

theorem storeFoldOf_id_aux : ∀ (es acc : Entries), wfEntries es = true →
    keysNodupE es = true → keysFresh es acc = true →
    storeFoldOf acc es = appendE acc es
  | .nil, acc, _, _, _ => (appendE_nil acc).symm
  | .cons k v rest, acc, hwf, hnd, hfr => by
    simp only [wfEntries, Bool.and_eq_true] at hwf
    simp only [keysNodupE, Bool.and_eq_true, Bool.not_eq_true'] at hnd
    simp only [keysFresh, Bool.and_eq_true, Bool.not_eq_true'] at hfr
    have hkeq : storeKeyOf k = k := of_decide_eq_true hwf.1.1
    simp only [storeFoldOf]
    rw [hkeq, alSet_fresh acc k v hfr.1]
    rw [storeFoldOf_id_aux rest (appendE acc (.cons k v .nil)) hwf.2 hnd.2
      (keysFresh_extend rest acc k v hfr.2 hnd.1)]
    rw [appendE_assoc]
    rfl

theorem storeFoldOf_nil_id (es : Entries) (hwf : wfEntries es = true)
    (hnd : keysNodupE es = true) : storeFoldOf .nil es = es := by
  rw [storeFoldOf_id_aux es .nil hwf hnd (keysFresh_nil_acc es)]
  rfl

mutual

theorem roundtrip_val : ∀ (v : Val), wfVal v = true →
    resolveVal (toDictVal v) = v
  | .prim _, _ => rfl
  | .pdict _, h => by simp [wfVal] at h
  | .plist xs, h => by
    show Val.plist (resolveItems (toDictItems xs)) = Val.plist xs
    rw [roundtrip_items xs h]
  | .dwz s a, h => by
    simp only [wfVal, Bool.and_eq_true, decide_eq_true_iff] at h
    obtain ⟨⟨hes, hnd⟩, ha⟩ := h
    show upsertInto (toDictEntries s) .nil .nil = Val.dwz s a
    rw [roundtrip_entries s .nil .nil hes]
    rw [storeFoldOf_nil_id s hes hnd]
    rw [ha]
    rfl

theorem roundtrip_items : ∀ (xs : Items), wfItems xs = true →
    resolveItems (toDictItems xs) = xs
  | .nil, _ => rfl
  | .cons v rest, h => by
    simp only [wfItems, Bool.and_eq_true] at h
    show Items.cons (resolveVal (toDictVal v))
      (resolveItems (toDictItems rest)) = Items.cons v rest
    rw [roundtrip_val v h.1, roundtrip_items rest h.2]

theorem roundtrip_entries : ∀ (es s0 a0 : Entries), wfEntries es = true →
    upsertInto (toDictEntries es) s0 a0 =
      .dwz (storeFoldOf s0 es) (attrsFoldOf a0 es)
  | .nil, _, _, _ => rfl
  | .cons k v rest, s0, a0, h => by
    simp only [wfEntries, Bool.and_eq_true] at h
    obtain ⟨⟨hst, hv⟩, hrest⟩ := h
    show upsertInto (Entries.cons k (toDictVal v) (toDictEntries rest))
      s0 a0 = _
    rw [upsertInto_cons]
    rw [roundtrip_val v hv]
    rw [upsertEntry_eq]
    rw [roundtrip_entries rest _ _ hrest]
    rfl

end

/-- **C7, counterexample.** The container built from `{"For!": 1}` has the
normalized key `"for"` in both views (the non-reserved branch applies,
since `"For!".lower()` is `"for!"`, not a keyword). Rebuilding a container
from its `to_dict` image re-normalizes `"for"`, which *is* a keyword, into
the reserved-word branch: the attribute view now holds `"for_"` instead of
`"for"`, so the subscript-accessible contents change. (The same happens
whichever view `to_dict` walks, since both hold `"for"`.) -/
theorem c7_roundtrip_counterexample :
    dotWizPlus (.cons ['F','o','r','!'] (.prim 1) .nil) .nil =
      .dwz (.cons ['f','o','r'] (.prim 1) .nil)
        (.cons ['f','o','r'] (.prim 1) .nil) ∧
    toDictVal (.dwz (.cons ['f','o','r'] (.prim 1) .nil)
        (.cons ['f','o','r'] (.prim 1) .nil)) =
      .pdict (.cons ['f','o','r'] (.prim 1) .nil) ∧
    getItem (.dwz (.cons ['f','o','r'] (.prim 1) .nil)
        (.cons ['f','o','r'] (.prim 1) .nil)) ['f','o','r'] =
      some (.prim 1) ∧
    getItem (dotWizPlus (.cons ['f','o','r'] (.prim 1) .nil) .nil)
      ['f','o','r'] = none :=
  ⟨rfl, rfl, rfl, rfl⟩

/-- **C7, amended.** For every well-formed container — stable, pairwise
distinct store keys (in particular no store key that is itself a reserved
word, the situation produced by keys *normalizing to* a reserved word),
recursively resolved well-formed values, and the attribute mapping derived
from the store — converting to a plain dict with `to_dict` and
constructing a fresh `DotWizPlus` from it reproduces the container
exactly, so in particular the subscript-accessible keys and values are
unchanged. Containers built from benign input are of this form. -/
theorem c7_roundtrip_wf (s a : Entries) (h : wfVal (.dwz s a) = true) :
    toDictVal (.dwz s a) = .pdict (toDictEntries s) ∧
    dotWizPlus (toDictEntries s) .nil = .dwz s a ∧
    (∀ k, getItem (dotWizPlus (toDictEntries s) .nil) k =
      getItem (.dwz s a) k) := by
  have key : dotWizPlus (toDictEntries s) .nil = .dwz s a := by
    simp only [wfVal, Bool.and_eq_true, decide_eq_true_iff] at h
    obtain ⟨⟨hes, hnd⟩, ha⟩ := h
    show upsertInto (mergeKwargs (toDictEntries s) .nil) .nil .nil = _
    have hm : mergeKwargs (toDictEntries s) .nil = toDictEntries s := rfl
    rw [hm, roundtrip_entries s .nil .nil hes, storeFoldOf_nil_id s hes hnd,
      ha]
    rfl
  exact ⟨rfl, key, fun k => by rw [key]⟩

theorem c7_roundtrip_witness :
    wfVal (.dwz
      (.cons ['F','o','r'] (.prim 1)
        (.cons ['a'] (.dwz (.cons ['b'] (.prim 3) .nil)
          (.cons ['b'] (.prim 3) .nil)) .nil))
      (.cons ['f','o','r','_'] (.prim 1)
        (.cons ['a'] (.dwz (.cons ['b'] (.prim 3) .nil)
          (.cons ['b'] (.prim 3) .nil)) .nil))) = true ∧
    dotWizPlus (toDictEntries
      (.cons ['F','o','r'] (.prim 1)
        (.cons ['a'] (.dwz (.cons ['b'] (.prim 3) .nil)
          (.cons ['b'] (.prim 3) .nil)) .nil))) .nil =
    .dwz
      (.cons ['F','o','r'] (.prim 1)
        (.cons ['a'] (.dwz (.cons ['b'] (.prim 3) .nil)
          (.cons ['b'] (.prim 3) .nil)) .nil))
      (.cons ['f','o','r','_'] (.prim 1)
        (.cons ['a'] (.dwz (.cons ['b'] (.prim 3) .nil)
          (.cons ['b'] (.prim 3) .nil)) .nil)) :=
  ⟨by decide, (c7_roundtrip_wf _ _ (by decide)).2.1⟩
